import Mathlib

/-!
Verification of the augraphy core against its specification.

The development shallowly embeds the Python sources:
* `augraphy/augmentations/dithering.py`  (Bayer matrix construction, ordered
  dithering, Floyd–Steinberg error diffusion),
* `src/Augraphy/Augmentations/ScannerAugmentation.py` (parallel light mask),
* `augraphy/base/augmentationsequence.py` (the pipeline executor),
* `augraphy/augmentations/geometric.py` (crop sub-operation).

Machine floats that only ever hold exact dyadic/small rational values are
modelled by `ℚ` (every operation performed by the dithering code on the
relevant values — halving powers of two, multiples of 1/16, floors — is exact
in binary64, so the rational model agrees with the float run); real-number
computations live in `ℝ`.  8-bit pixels are `ℕ` values, with the numpy
`astype("uint8")` wrap-around cast made explicit where the code performs it.
Failing executions are explicit: the `NameError` raised by the unbound name
`norm` in `ScannerAugmentation.py` and the `TypeError` raised by the shadowed
`crop` method in `geometric.py` are modelled as `none` of an `Option` result.
-/

namespace Augraphy

/-! ## Bayer matrices: `Dithering.create_bayer`

The Python function recursively subdivides a square into quadrants in the
order top-left, bottom-right, top-right, bottom-left, writing
`value + step * q` style accumulators; `half = size / 2` is Python float
division, so `size` is carried as a rational.  The mutable
list-of-lists matrix becomes an explicit `List (List ℕ)` threaded through the
recursion, and the unbounded Python recursion is given an explicit fuel
parameter: `none` models a call that does not finish within `fuel` nested
levels (the source has no other failure mode — there is no size validation).
-/

/-- The ordered matrix: a list of rows of natural numbers, as built by
`create_bayer` (`List[List[int]]` in the source). -/
abbrev BMat := List (List ℕ)

/-- `matrix[int(y)][int(x)] = value` for the (always nonnegative, integral)
rational coordinates of `create_bayer`; out-of-range writes are dropped,
matching Python only on the in-range writes the source actually performs. -/
def writeCell (m : BMat) (y x : ℚ) (value : ℕ) : BMat :=
  let yi := (⌊y⌋).toNat
  let xi := (⌊x⌋).toNat
  m.set yi ((m.getD yi []).set xi value)

/-- `Dithering.create_bayer(x, y, size, value, step, matrix)`: recursive
quad-tree subdivision, quadrants in the fixed order TL, BR, TR, BL, with
`step` quadrupling at each level.  `fuel` bounds the recursion depth. -/
def create_bayer : ℕ → ℚ → ℚ → ℚ → ℕ → ℕ → BMat → Option BMat
  | 0, _, _, _, _, _, _ => none
  | fuel + 1, x, y, size, value, step, m =>
    if size = 1 then some (writeCell m y x value)
    else
      let half := size / 2
      (create_bayer fuel x y half (value + step * 0) (step * 4) m).bind fun m1 =>
      (create_bayer fuel (x + half) (y + half) half (value + step * 1) (step * 4) m1).bind fun m2 =>
      (create_bayer fuel (x + half) y half (value + step * 2) (step * 4) m2).bind fun m3 =>
      create_bayer fuel x (y + half) half (value + step * 3) (step * 4) m3

/-- The all-zero `size × size` matrix the source allocates when it is called
with the default `matrix == [[]]` argument. -/
def zerosMatrix (size : ℕ) : BMat :=
  List.replicate size (List.replicate size 0)

/-- The top-level call performed by `dither_Ordered`:
`create_bayer(0, 0, size, 0, 1)` on a fresh zero matrix. -/
def create_bayer_run (fuel : ℕ) (size : ℕ) : Option BMat :=
  create_bayer fuel 0 0 (size : ℚ) 0 1 (zerosMatrix size)

/-- Entry `m[i][j]` of an ordered matrix (with the defaults never reached on
the in-range reads the source performs). -/
def matEntry (m : BMat) (i j : ℕ) : ℕ :=
  (m.getD i []).getD j 0

/-- Closed form of the value `create_bayer` stores at offset `(i, j)` of a
square of side `2^k`: quadrant code (TL ↦ 0, BR ↦ 1, TR ↦ 2, BL ↦ 3)
plus four times the value of the half-size subproblem. -/
def bayerVal : ℕ → ℕ → ℕ → ℕ
  | 0, _, _ => 0
  | k + 1, i, j =>
    let h := 2 ^ k
    (if i < h then if j < h then 0 else 2 else if j < h then 3 else 1)
      + 4 * bayerVal k (i % h) (j % h)

/-- Explicit inverse of `bayerVal`: quadrant from `t mod 4`, sub-position from
`t / 4`. -/
def bayerInv : ℕ → ℕ → ℕ × ℕ
  | 0, _ => (0, 0)
  | k + 1, t =>
    let p := bayerInv k (t / 4)
    if t % 4 = 0 then (p.1, p.2)
    else if t % 4 = 1 then (p.1 + 2 ^ k, p.2 + 2 ^ k)
    else if t % 4 = 2 then (p.1, p.2 + 2 ^ k)
    else (p.1 + 2 ^ k, p.2)

/-! ## Ordered dithering: `Dithering.apply_Ordered` / `dither_Ordered`

An image plane is a pixel function `(row, column) ↦ value`.  The source copies
the uint8 array to float and processes pixels in place, but every value read
or written by the ordered dither is an exact 8-bit integer, so the plane is
kept `ℕ`-valued.  The nested `for y / for x` loop is a left fold over the
row-major coordinate list. -/

/-- One image plane. -/
abbrev NImg := ℕ → ℕ → ℕ

/-- In-place write `image[y, x] = v`. -/
def updPix (img : NImg) (y x v : ℕ) : NImg :=
  fun y' x' => if y' = y ∧ x' = x then v else img y' x'

/-- Row-major coordinates of the nested loop `for y in range(ysize): for x in
range(xsize)`. -/
def ordCoords (ys xs : ℕ) : List (ℕ × ℕ) :=
  (List.range ys).flatMap fun y => (List.range xs).map fun x => (y, x)

/-- Loop body of `apply_Ordered`: `oy = y % order; ox = x % order;`
write 255 if `image[y, x] > ordered_matrix[oy][ox]` else 0. -/
def ordStep (order : ℕ) (mat : BMat) (img : NImg) (c : ℕ × ℕ) : NImg :=
  updPix img c.1 c.2
    (if matEntry mat (c.1 % order) (c.2 % order) < img c.1 c.2 then 255 else 0)

/-- `Dithering.apply_Ordered(image, ysize, xsize, order, ordered_matrix)`. -/
def apply_Ordered (ys xs order : ℕ) (mat : BMat) (img : NImg) : NImg :=
  (ordCoords ys xs).foldl (ordStep order mat) img

/-- The quantization loop of `dither_Ordered`:
`ordered_matrix[y][x] = np.floor(value / total_number * 255)` with
`total_number = len(matrix) * len(matrix[0]) - 1`; natural division is the
floor of the exact rational value. -/
def normalizeBayer (m : BMat) : BMat :=
  m.map fun row => row.map fun v => v * 255 / (m.length * (m.headD []).length - 1)

/-- `Dithering.dither_Ordered(image, order)` on one plane (a colour image is
processed channel by channel with the same matrix). -/
def dither_Ordered (order ys xs : ℕ) (img : NImg) : Option NImg :=
  (create_bayer_run (order + 1) (2 ^ order)).map fun m =>
    apply_Ordered ys xs order (normalizeBayer m) img

/-- The ordered dither as claim C1 words it: identical to `dither_Ordered`
except that the tile coordinates are reduced modulo the matrix side
`2^order` instead of modulo `order`.  Stated from the claim, to be compared
against the source-derived `dither_Ordered`. -/
def dither_Ordered_claimC1 (order ys xs : ℕ) (img : NImg) : Option NImg :=
  (create_bayer_run (order + 1) (2 ^ order)).map fun m =>
    apply_Ordered ys xs (2 ^ order) (normalizeBayer m) img

/-! ## Floyd–Steinberg error diffusion: `Dithering.apply_Floyd_Steinberg`

The source copies the uint8 image to a float buffer, scans the interior
(`for y in range(1, ysize - 1): for x in range(1, xsize - 1)`), thresholds the
visited pixel in place and adds the (nonpositive) quantization error onto four
neighbours.  Every float the run produces is a dyadic rational of tiny
magnitude, exact in binary64, so the buffer is a `ℚ`-valued plane; the final
`astype("uint8")` wrap-around cast is `toUint8`. -/

/-- The float working buffer. -/
def QImg := ℤ → ℤ → ℚ

/-- `image[y, x] = v`. -/
def qwrite (img : QImg) (y x : ℤ) (v : ℚ) : QImg :=
  fun y' x' => if y' = y ∧ x' = x then v else img y' x'

/-- `image[y, x] += d`. -/
def qadd (img : QImg) (y x : ℤ) (d : ℚ) : QImg :=
  fun y' x' => if y' = y ∧ x' = x then img y' x' + d else img y' x'

/-- One iteration of the interior scan at `c = (y, x)`:
`new = 255 * floor(old / 128)`, write it back, then diffuse
`quant_error = min(old - new, 0)` with weights 7/16 (right), 3/16
(lower-left), 5/16 (below), 1/16 (lower-right). -/
def fsStep (img : QImg) (c : ℤ × ℤ) : QImg :=
  let old := img c.1 c.2
  let newPixel : ℚ := 255 * (⌊old / 128⌋ : ℚ)
  let img1 := qwrite img c.1 c.2 newPixel
  let quantError := min (old - newPixel) 0
  let img2 := qadd img1 c.1 (c.2 + 1) (quantError * (7 / 16))
  let img3 := qadd img2 (c.1 + 1) (c.2 - 1) (quantError * (3 / 16))
  let img4 := qadd img3 (c.1 + 1) c.2 (quantError * (5 / 16))
  qadd img4 (c.1 + 1) (c.2 + 1) (quantError * (1 / 16))

/-- Row-major interior coordinates
`[(y, x) : y in range(1, ysize-1), x in range(1, xsize-1)]`. -/
def fsCoords (ys xs : ℕ) : List (ℤ × ℤ) :=
  (List.range' 1 (ys - 2)).flatMap fun y =>
    (List.range' 1 (xs - 2)).map fun x : ℕ => ((y : ℤ), (x : ℤ))

/-- `Dithering.apply_Floyd_Steinberg(image, ysize, xsize)`. -/
def apply_Floyd_Steinberg (ys xs : ℕ) (img : QImg) : QImg :=
  (fsCoords ys xs).foldl fsStep img

/-- numpy's `astype("uint8")` on the integral values this code casts:
truncate and wrap modulo 256 (for the nonnegative in-range values of
interest this is the identity). -/
def toUint8 (q : ℚ) : ℕ := (⌊q⌋ % 256).toNat

/-- The uint8 plane viewed as the float buffer (`astype("float")`). -/
def castImg (img : ℤ → ℤ → ℕ) : QImg := fun y x => (img y x : ℚ)

/-- `Dithering.dither_Floyd_Steinberg` on one plane (colour channels are
processed independently). -/
def dither_Floyd_Steinberg (ys xs : ℕ) (img : ℤ → ℤ → ℕ) : ℤ → ℤ → ℕ :=
  fun y x => toUint8 (apply_Floyd_Steinberg ys xs (castImg img) y x)

/-- Strict row-major order on cells. -/
def rmLT (c d : ℤ × ℤ) : Prop := c.1 < d.1 ∨ (c.1 = d.1 ∧ c.2 < d.2)

/-- A 5×5 input built so that interior pixel `(2, 2)` has accumulated a
negative value when visited. -/
def fsImg5 : ℤ → ℤ → ℕ := fun y x =>
  if y = 1 ∧ x = 1 then 128
  else if y = 1 ∧ x = 2 then 184
  else if y = 1 ∧ x = 3 then 184
  else if y = 2 ∧ x = 1 then 192
  else if y = 2 ∧ x = 2 then 0
  else 255

/-! ## Parallel light mask: `ScannerAugmentation.generate_parallel_light_mask`

The row-fill loop of the mask generator dispatches on the `mode` string and
writes one constant value per pre-rotation canvas row.  A row value is an
`Option ℝ`: `none` models an exception escaping the fill (the gaussian
branch raises `NameError`, because the module never binds the name `norm`
its helper dereferences). -/

/-- What the module namespace of `ScannerAugmentation.py` binds the free
name `norm` to: nothing — its imports are `random`, `numpy`, `cv2`,
`ImageTransformer` and `DirtyRollersAugmentation`, and `norm` is defined
nowhere in the file, so evaluating `norm.pdf` raises `NameError`. -/
def normLookup : Option (ℝ → ℝ → ℝ → ℝ) := none

/-- The density `scipy.stats.norm.pdf(x, loc, scale)` — what the unresolved
name `norm` was evidently meant to denote (the spec reads the gaussian decay
as a normal-pdf ratio); used only to state what the dead helper body would
compute. -/
noncomputable def normPdf (x loc scale : ℝ) : ℝ :=
  (1 / (scale * Real.sqrt (2 * Real.pi))) *
    Real.exp (-(x - loc) ^ 2 / (2 * scale ^ 2))

/-- `ScannerAugmentation._decayed_value_in_linear(x, max_value,
padding_center, decay_rate)`: `max_value - abs(padding_center - x) *
decay_rate`, replaced by 1 only when the result is negative. -/
noncomputable def decayed_value_in_linear (x maxValue paddingCenter decayRate : ℝ) : ℝ :=
  let xv := maxValue - |paddingCenter - x| * decayRate
  if xv < 0 then 1 else xv

/-- The body of `ScannerAugmentation._decayed_value_in_norm(x, max_value,
min_value, center, range)`, abstracted over whatever `norm.pdf` resolves to:
`radius = range / 3`, then the pdf-ratio decay scaled between the
brightness bounds. -/
noncomputable def decayed_value_in_norm_body (pdf : ℝ → ℝ → ℝ → ℝ)
    (x maxValue minValue center rangeSize : ℝ) : ℝ :=
  let radius := rangeSize / 3
  let centerProb := pdf center center radius
  let xProb := pdf x center radius
  (xProb / centerProb) * (maxValue - minValue) + minValue

/-- `ScannerAugmentation._decayed_value_in_norm` as the program runs it: the
lookup of `norm` fails (`normLookup = none`), so every call raises
`NameError` — modelled `none` — and no value is ever produced. -/
noncomputable def decayed_value_in_norm (x maxValue minValue center rangeSize : ℝ) :
    Option ℝ :=
  normLookup.map fun pdf =>
    decayed_value_in_norm_body pdf x maxValue minValue center rangeSize

/-- The per-row dispatch inside the fill loop of
`generate_parallel_light_mask`: the branch tests `mode == "linear"` first,
then `mode == "gaussian"`, and otherwise fills the row with 0; `none` is an
exception escaping the fill. -/
noncomputable def maskRowValue (mode : String) (i maxB minB lightY maskH rate : ℝ) :
    Option ℝ :=
  if mode = "linear" then some (decayed_value_in_linear i maxB lightY rate)
  else if mode = "gaussian" then decayed_value_in_norm i maxB minB lightY maskH
  else some 0

/-- `padding = int(max(mask_size) * np.sqrt(2))`. -/
noncomputable def maskPadding (w h : ℕ) : ℤ :=
  ⌊(max w h : ℝ) * Real.sqrt 2⌋

/-- The value `generate_parallel_light_mask(mask_size=(w, h), position=(pos_x,
pos_y), ...)` writes into every cell of pre-rotation canvas row `i`: the
decay center is the padded light row `init_light_pos[1] = padding + pos_y`
and the gaussian `range` argument is `mask_size[1] = h` (`pos_x` plays no
part in the row fill). -/
noncomputable def pre_rotation_row_value (mode : String) (w h : ℕ) (posY : ℤ)
    (maxB minB rate : ℝ) (i : ℕ) : Option ℝ :=
  maskRowValue mode i maxB minB ((maskPadding w h : ℝ) + (posY : ℝ)) h rate

/-! ## Pipeline executor: `AugmentationSequence.__call__`

A Python value flowing through the executor is an image, `None` (what a
gated-off augmentation implicitly returns), or the tuple a nested sequence
returns — of which the executor only ever reads component 0, so the model
keeps just the payload. -/

inductive PyVal (Img : Type) where
  | none : PyVal Img
  | image : Img → PyVal Img
  | tup : PyVal Img → PyVal Img
  deriving DecidableEq

/-- Modelled from the spec: the probability gate of the base `Augmentation`
class (`base/augmentation.py` is not among the source files): a uniform draw
in `[0, 1]` compared against the configured `p`; the gate passes when
`draw ≤ p`. -/
def shouldRun (p draw : ℚ) : Bool := draw ≤ p

/-- A configured augmentation: its probability and the transform its
`__call__` computes when the gate passes. -/
structure Aug (Img : Type) where
  p : ℚ
  f : PyVal Img → PyVal Img

/-- The gated `__call__` shape shared by every augmentation in the sources:
`if force or self.should_run(): ... return result` — and an implicit `None`
return otherwise. -/
def Aug.call {Img : Type} (a : Aug Img) (input : PyVal Img) (force : Bool)
    (draw : ℚ) : PyVal Img :=
  if force || shouldRun a.p draw then a.f input else PyVal.none

/-- The stage loop of `AugmentationSequence.__call__`: unwrap a tuple result
(`result = result[0]`), call the augmentation WITHOUT the force flag
(`augmentation(result)`), append the raw result to `self.results`, feed it to
the next stage.  Returns the final value and the accumulated log. -/
def runAugs {Img : Type} : List (Aug Img) → List ℚ → PyVal Img →
    PyVal Img × List (PyVal Img)
  | [], _, result => (result, [])
  | a :: rest, draws, result =>
      let unwrapped := match result with
        | PyVal.tup r => r
        | r => r
      let current := a.call unwrapped false draws.headI
      let next := runAugs rest draws.tail current
      (next.1, current :: next.2)

/-- `AugmentationSequence.__call__(image, force)` on a freshly constructed
executor (empty `results` log): when the outer gate passes, run the stages
and return the tuple `(result, self.augmentations)` — carried as
`PyVal.tup result` — together with the log; otherwise return `None` with the
log untouched. -/
def augmentation_sequence_call {Img : Type} (p : ℚ) (augs : List (Aug Img))
    (image : PyVal Img) (force : Bool) (drawSeq : ℚ) (draws : List ℚ) :
    PyVal Img × List (PyVal Img) :=
  if force || shouldRun p drawSeq then
    let r := runAugs augs draws image
    (PyVal.tup r.1, r.2)
  else (PyVal.none, [])

/-- A stage whose transform is a pure image function, as the non-sequence
augmentations of the sources are. -/
def imageAug {Img : Type} (p : ℚ) (g : Img → Img) : Aug Img :=
  ⟨p, fun v => match v with
    | PyVal.image im => PyVal.image (g im)
    | v => v⟩

/-! ## Geometric crop: `Geometric.crop` / `Geometric.__call__` -/

/-- Python list slicing `l[a : b]` for the nonnegative bounds that reach the
crop (its validity check guarantees `0 ≤ a` and `0 < b`): take then drop,
clamping at the list length exactly as slicing does. -/
def pySlice {α : Type} (l : List α) (a b : ℤ) : List α :=
  (l.take b.toNat).drop a.toNat

/-- The body of the `Geometric.crop` method: only 4-tuples are considered; a
`-1` end is replaced by the image size; the crop is applied only when
`yend > ystart and ystart >= 0` and `xend > xstart and xstart >= 0`, and
otherwise the image is returned unchanged.  (This body is unreachable
through `Geometric.__call__`: the instance attribute `self.crop` — the
configured tuple — shadows the method, see `geometric_call_crop`.) -/
def geometric_crop (crop : List ℤ) (image : List (List ℕ)) : List (List ℕ) :=
  if crop.length = 4 then
    let ysize : ℤ := image.length
    let xsize : ℤ := (image.headD []).length
    let xstart := crop.getD 0 0
    let ystart := crop.getD 1 0
    let xend := if crop.getD 2 0 = -1 then xsize else crop.getD 2 0
    let yend := if crop.getD 3 0 = -1 then ysize else crop.getD 3 0
    if yend > ystart ∧ ystart ≥ 0 ∧ xend > xstart ∧ xstart ≥ 0 then
      (pySlice image ystart yend).map fun row => pySlice row xstart xend
    else image
  else image

/-- The crop sub-operation as `Geometric.__call__` actually executes it:
`__init__` stores the configured tuple under the same name as the method
(`self.crop = crop`), and a Python instance attribute shadows the method of
the same name, so `if self.crop:` tests the tuple and `self.crop(image)`
calls the tuple itself — raising `TypeError: 'tuple' object is not
callable` (modelled `none`) for every non-empty configured crop.  Only the
empty default tuple skips the branch and passes the image through. -/
def geometric_call_crop (crop : List ℤ) (image : List (List ℕ)) :
    Option (List (List ℕ)) :=
  if crop ≠ [] then none else some image

/-! ## Lemmas and claim theorems -/

lemma bayerVal_lt (k : ℕ) : ∀ i j : ℕ, i < 2 ^ k → j < 2 ^ k →
    bayerVal k i j < 4 ^ k := by
  induction k with
  | zero => intro i j hi hj; simp [bayerVal]
  | succ k ih =>
    intro i j hi hj
    have h2 : 0 < 2 ^ k := pow_pos (by norm_num) k
    have hin := ih (i % 2 ^ k) (j % 2 ^ k) (Nat.mod_lt _ h2) (Nat.mod_lt _ h2)
    have hq : (if i < 2 ^ k then if j < 2 ^ k then 0 else 2
        else if j < 2 ^ k then 3 else 1) ≤ 3 := by
      split_ifs <;> omega
    simp only [bayerVal]
    have : (4:ℕ) ^ (k + 1) = 4 * 4 ^ k := by ring
    omega

lemma bayerInv_bayerVal (k : ℕ) : ∀ i j : ℕ, i < 2 ^ k → j < 2 ^ k →
    bayerInv k (bayerVal k i j) = (i, j) := by
  induction k with
  | zero =>
    intro i j hi hj
    have hi0 : i = 0 := by omega
    have hj0 : j = 0 := by omega
    subst hi0; subst hj0
    simp [bayerVal, bayerInv]
  | succ k ih =>
    intro i j hi hj
    have h2 : 0 < 2 ^ k := pow_pos (by norm_num) k
    have h22 : (2:ℕ) ^ (k + 1) = 2 ^ k + 2 ^ k := by ring
    have hq : (if i < 2 ^ k then if j < 2 ^ k then 0 else 2
        else if j < 2 ^ k then 3 else 1) < 4 := by split_ifs <;> omega
    simp only [bayerVal, bayerInv]
    rw [Nat.add_mul_div_left _ _ (by norm_num : (0:ℕ) < 4),
      Nat.add_mul_mod_self_left,
      Nat.div_eq_of_lt hq, Nat.mod_eq_of_lt hq, Nat.zero_add,
      ih (i % 2 ^ k) (j % 2 ^ k) (Nat.mod_lt _ h2) (Nat.mod_lt _ h2)]
    by_cases hi2 : i < 2 ^ k <;> by_cases hj2 : j < 2 ^ k
    · simp only [if_pos hi2, if_pos hj2]
      simp [Nat.mod_eq_of_lt hi2, Nat.mod_eq_of_lt hj2]
    · simp only [if_pos hi2, if_neg hj2]
      have hj' : j % 2 ^ k = j - 2 ^ k := by
        rw [Nat.mod_eq_sub_mod (by omega)]; exact Nat.mod_eq_of_lt (by omega)
      simp [Nat.mod_eq_of_lt hi2, hj']; omega
    · simp only [if_neg hi2, if_pos hj2]
      have hi' : i % 2 ^ k = i - 2 ^ k := by
        rw [Nat.mod_eq_sub_mod (by omega)]; exact Nat.mod_eq_of_lt (by omega)
      simp [Nat.mod_eq_of_lt hj2, hi']; omega
    · simp only [if_neg hi2, if_neg hj2]
      have hi' : i % 2 ^ k = i - 2 ^ k := by
        rw [Nat.mod_eq_sub_mod (by omega)]; exact Nat.mod_eq_of_lt (by omega)
      have hj' : j % 2 ^ k = j - 2 ^ k := by
        rw [Nat.mod_eq_sub_mod (by omega)]; exact Nat.mod_eq_of_lt (by omega)
      simp [hi', hj']; omega

lemma bayerVal_bayerInv (k : ℕ) : ∀ t : ℕ, t < 4 ^ k →
    (bayerInv k t).1 < 2 ^ k ∧ (bayerInv k t).2 < 2 ^ k ∧
      bayerVal k (bayerInv k t).1 (bayerInv k t).2 = t := by
  induction k with
  | zero => intro t ht; interval_cases t; simp [bayerInv, bayerVal]
  | succ k ih =>
    intro t ht
    have h2 : 0 < 2 ^ k := pow_pos (by norm_num) k
    have h22 : (2:ℕ) ^ (k + 1) = 2 ^ k + 2 ^ k := by ring
    have ht4 : t / 4 < 4 ^ k := by
      have : (4:ℕ) ^ (k + 1) = 4 * 4 ^ k := by ring
      omega
    obtain ⟨h1, h2', h3⟩ := ih (t / 4) ht4
    have ht' : t % 4 = 0 ∨ t % 4 = 1 ∨ t % 4 = 2 ∨ t % 4 = 3 := by omega
    rcases ht' with h | h | h | h
    · simp only [bayerInv, h, if_pos]
      refine ⟨by omega, by omega, ?_⟩
      simp only [bayerVal]
      rw [if_pos h1, if_pos h2', Nat.mod_eq_of_lt h1, Nat.mod_eq_of_lt h2', h3]
      omega
    · simp only [bayerInv, h]
      norm_num
      refine ⟨by omega, by omega, ?_⟩
      simp only [bayerVal]
      rw [if_neg (by omega), if_neg (by omega), Nat.add_mod_right,
        Nat.add_mod_right, Nat.mod_eq_of_lt h1, Nat.mod_eq_of_lt h2', h3]
      omega
    · simp only [bayerInv, h]
      norm_num
      refine ⟨by omega, by omega, ?_⟩
      simp only [bayerVal]
      rw [if_pos h1, if_neg (by omega), Nat.add_mod_right,
        Nat.mod_eq_of_lt h1, Nat.mod_eq_of_lt h2', h3]
      omega
    · simp only [bayerInv, h]
      norm_num
      refine ⟨by omega, by omega, ?_⟩
      simp only [bayerVal]
      rw [if_neg (by omega), if_pos h2', Nat.add_mod_right,
        Nat.mod_eq_of_lt h1, Nat.mod_eq_of_lt h2', h3]
      omega

lemma getD_set {α : Type} (l : List α) (i j : ℕ) (a d : α) (hi : i < l.length) :
    (l.set i a).getD j d = if j = i then a else l.getD j d := by
  induction l generalizing i j with
  | nil => simp at hi
  | cons x xs ih =>
    cases i with
    | zero => cases j <;> simp [List.set]
    | succ i =>
      cases j with
      | zero => simp [List.set]
      | succ j =>
        simpa [List.set] using ih i j (by simpa using hi)

lemma getD_mem {α : Type} (l : List α) (i : ℕ) (d : α) (h : i < l.length) :
    l.getD i d ∈ l := by
  induction l generalizing i with
  | nil => simp at h
  | cons x xs ih =>
    cases i with
    | zero => simp
    | succ i => simpa using Or.inr (ih i (by simpa using h))

lemma writeCell_natCast (m : BMat) (y x v : ℕ) :
    writeCell m (y : ℚ) (x : ℚ) v = m.set y ((m.getD y []).set x v) := by
  simp [writeCell]

lemma matEntry_set_set (m : BMat) (y x v : ℕ) (Y X : ℕ)
    (hy : y < m.length) (hx : x < (m.getD y []).length) :
    matEntry (m.set y ((m.getD y []).set x v)) Y X =
      if Y = y ∧ X = x then v else matEntry m Y X := by
  unfold matEntry
  rw [getD_set m y Y _ _ hy]
  by_cases hY : Y = y
  · subst hY
    rw [if_pos rfl, getD_set _ x X _ _ hx]
    by_cases hX : X = x
    · simp [hX]
    · simp [hX]
  · simp [hY]

/-- What `create_bayer` computes on a power-of-two square: it succeeds with
recursion depth `k + 1`, preserves the matrix shape, writes
`value + step * bayerVal k (Y - y0) (X - x0)` on the addressed square and
leaves every other entry alone. -/
lemma create_bayer_char (k : ℕ) : ∀ (x0 y0 v s : ℕ) (m : BMat) (N : ℕ),
    m.length = N → (∀ row ∈ m, row.length = N) →
    y0 + 2 ^ k ≤ N → x0 + 2 ^ k ≤ N →
    ∃ m', create_bayer (k + 1) (x0 : ℚ) (y0 : ℚ) ((2 ^ k : ℕ) : ℚ) v s m = some m' ∧
      m'.length = N ∧ (∀ row ∈ m', row.length = N) ∧
      ∀ Y X : ℕ, matEntry m' Y X =
        if y0 ≤ Y ∧ Y < y0 + 2 ^ k ∧ x0 ≤ X ∧ X < x0 + 2 ^ k
        then v + s * bayerVal k (Y - y0) (X - x0)
        else matEntry m Y X := by
  induction k with
  | zero =>
    intro x0 y0 v s m N hlen hrows hy hx
    simp only [pow_zero] at hy hx
    have hy0 : y0 < m.length := by omega
    have hx0 : x0 < (m.getD y0 []).length := by
      rw [hrows _ (getD_mem m y0 [] hy0)]; omega
    refine ⟨m.set y0 ((m.getD y0 []).set x0 v), ?_, ?_, ?_, ?_⟩
    · rw [create_bayer, if_pos (by norm_num), writeCell_natCast]
    · simpa using hlen
    · intro row hrow
      rcases List.mem_or_eq_of_mem_set hrow with h | h
      · exact hrows _ h
      · rw [h]; simpa using hrows _ (getD_mem m y0 [] hy0)
    · intro Y X
      rw [matEntry_set_set _ _ _ _ _ _ hy0 hx0]
      by_cases hc : Y = y0 ∧ X = x0
      · rw [if_pos hc, if_pos (by omega)]
        obtain ⟨rfl, rfl⟩ := hc
        simp [bayerVal]
      · rw [if_neg hc, if_neg (fun h' => hc ⟨by omega, by omega⟩)]
  | succ k ih =>
    intro x0 y0 v s m N hlen hrows hy hx
    have hp : (2:ℕ) ^ (k + 1) = 2 ^ k + 2 ^ k := by ring
    have hlt2 : (2:ℕ) ≤ 2 ^ (k + 1) := by
      calc (2:ℕ) = 2 ^ 1 := by norm_num
      _ ≤ 2 ^ (k + 1) := Nat.pow_le_pow_right (by norm_num) (by omega)
    have hsize : ((2 ^ (k + 1) : ℕ) : ℚ) ≠ 1 := by
      intro h
      have : (2 ^ (k + 1) : ℕ) = 1 := by exact_mod_cast h
      omega
    have hhalf : ((2 ^ (k + 1) : ℕ) : ℚ) / 2 = ((2 ^ k : ℕ) : ℚ) := by
      push_cast [pow_succ]; ring
    have hxs : (x0 : ℚ) + ((2 ^ (k + 1) : ℕ) : ℚ) / 2 = ((x0 + 2 ^ k : ℕ) : ℚ) := by
      rw [hhalf]; push_cast; ring
    have hys : (y0 : ℚ) + ((2 ^ (k + 1) : ℕ) : ℚ) / 2 = ((y0 + 2 ^ k : ℕ) : ℚ) := by
      rw [hhalf]; push_cast; ring
    obtain ⟨m1, e1, l1, r1, c1⟩ := ih x0 y0 (v + s * 0) (s * 4) m N hlen hrows
      (by omega) (by omega)
    obtain ⟨m2, e2, l2, r2, c2⟩ := ih (x0 + 2 ^ k) (y0 + 2 ^ k) (v + s * 1) (s * 4) m1 N l1 r1
      (by omega) (by omega)
    obtain ⟨m3, e3, l3, r3, c3⟩ := ih (x0 + 2 ^ k) y0 (v + s * 2) (s * 4) m2 N l2 r2
      (by omega) (by omega)
    obtain ⟨m4, e4, l4, r4, c4⟩ := ih x0 (y0 + 2 ^ k) (v + s * 3) (s * 4) m3 N l3 r3
      (by omega) (by omega)
    refine ⟨m4, ?_, l4, r4, ?_⟩
    · rw [create_bayer, if_neg hsize]
      simp only [hxs, hys, hhalf, ← Nat.cast_add]
      rw [e1]
      simp only [Option.some_bind]
      rw [e2]
      simp only [Option.some_bind]
      rw [e3]
      simp only [Option.some_bind]
      exact e4
    · intro Y X
      rw [c4 Y X, c3 Y X, c2 Y X, c1 Y X]
      by_cases hbig : y0 ≤ Y ∧ Y < y0 + 2 ^ (k + 1) ∧ x0 ≤ X ∧ X < x0 + 2 ^ (k + 1)
      · rw [if_pos hbig]
        by_cases hYs : Y < y0 + 2 ^ k <;> by_cases hXs : X < x0 + 2 ^ k
        · -- top-left quadrant
          rw [if_neg (by omega), if_neg (by omega), if_neg (by omega),
            if_pos (by omega)]
          simp only [bayerVal]
          rw [if_pos (show Y - y0 < 2 ^ k by omega),
            if_pos (show X - x0 < 2 ^ k by omega),
            Nat.mod_eq_of_lt (show Y - y0 < 2 ^ k by omega),
            Nat.mod_eq_of_lt (show X - x0 < 2 ^ k by omega)]
          ring
        · -- top-right quadrant
          rw [if_neg (by omega), if_pos (by omega)]
          simp only [bayerVal]
          rw [if_pos (show Y - y0 < 2 ^ k by omega),
            if_neg (show ¬ X - x0 < 2 ^ k by omega),
            Nat.mod_eq_of_lt (show Y - y0 < 2 ^ k by omega),
            Nat.mod_eq_sub_mod (show 2 ^ k ≤ X - x0 by omega),
            Nat.mod_eq_of_lt (show X - x0 - 2 ^ k < 2 ^ k by omega)]
          have harg : X - (x0 + 2 ^ k) = X - x0 - 2 ^ k := by omega
          rw [harg]; ring
        · -- bottom-left quadrant
          rw [if_pos (by omega)]
          simp only [bayerVal]
          rw [if_neg (show ¬ Y - y0 < 2 ^ k by omega),
            if_pos (show X - x0 < 2 ^ k by omega),
            Nat.mod_eq_sub_mod (show 2 ^ k ≤ Y - y0 by omega),
            Nat.mod_eq_of_lt (show Y - y0 - 2 ^ k < 2 ^ k by omega),
            Nat.mod_eq_of_lt (show X - x0 < 2 ^ k by omega)]
          have harg : Y - (y0 + 2 ^ k) = Y - y0 - 2 ^ k := by omega
          rw [harg]; ring
        · -- bottom-right quadrant
          rw [if_neg (by omega), if_neg (by omega), if_pos (by omega)]
          simp only [bayerVal]
          rw [if_neg (show ¬ Y - y0 < 2 ^ k by omega),
            if_neg (show ¬ X - x0 < 2 ^ k by omega),
            Nat.mod_eq_sub_mod (show 2 ^ k ≤ Y - y0 by omega),
            Nat.mod_eq_of_lt (show Y - y0 - 2 ^ k < 2 ^ k by omega),
            Nat.mod_eq_sub_mod (show 2 ^ k ≤ X - x0 by omega),
            Nat.mod_eq_of_lt (show X - x0 - 2 ^ k < 2 ^ k by omega)]
          have harg1 : Y - (y0 + 2 ^ k) = Y - y0 - 2 ^ k := by omega
          have harg2 : X - (x0 + 2 ^ k) = X - x0 - 2 ^ k := by omega
          rw [harg1, harg2]; ring
      · rw [if_neg (by omega), if_neg (by omega), if_neg (by omega),
          if_neg (by omega), if_neg hbig]

lemma matEntry_zeros (n Y X : ℕ) : matEntry (zerosMatrix n) Y X = 0 := by
  unfold matEntry zerosMatrix
  have h1 : (List.replicate n (List.replicate n (0:ℕ))).getD Y [] =
      if Y < n then List.replicate n 0 else [] := by
    simp only [List.getD_eq_getElem?_getD, List.getElem?_replicate]
    split_ifs <;> simp
  rw [h1]
  split_ifs
  · simp only [List.getD_eq_getElem?_getD, List.getElem?_replicate]
    split_ifs <;> simp
  · simp

/-- `create_bayer(0, 0, 2^k, 0, 1)` on a fresh zero matrix: succeeds with
fuel `k + 1` and fills the square with `bayerVal k`. -/
lemma create_bayer_run_eq (k : ℕ) :
    ∃ m, create_bayer_run (k + 1) (2 ^ k) = some m ∧
      m.length = 2 ^ k ∧ (∀ row ∈ m, row.length = 2 ^ k) ∧
      ∀ Y X : ℕ, matEntry m Y X =
        if Y < 2 ^ k ∧ X < 2 ^ k then bayerVal k Y X else 0 := by
  obtain ⟨m, e, l, r, c⟩ := create_bayer_char k 0 0 0 1 (zerosMatrix (2 ^ k)) (2 ^ k)
    (by simp [zerosMatrix])
    (by intro row hrow
        rw [List.eq_of_mem_replicate hrow]
        simp)
    (by omega) (by omega)
  refine ⟨m, ?_, l, r, ?_⟩
  · unfold create_bayer_run
    simpa using e
  · intro Y X
    rw [c Y X]
    by_cases h : Y < 2 ^ k ∧ X < 2 ^ k
    · rw [if_pos (by omega), if_pos h]
      simp
    · rw [if_neg (by omega), if_neg h, matEntry_zeros]

lemma create_bayer_succ (fuel : ℕ) (x y size : ℚ) (v st : ℕ) (m : BMat)
    (hs : ¬ size = 1) :
    create_bayer (fuel + 1) x y size v st m =
      (create_bayer fuel x y (size / 2) (v + st * 0) (st * 4) m).bind fun m1 =>
      (create_bayer fuel (x + size / 2) (y + size / 2) (size / 2)
        (v + st * 1) (st * 4) m1).bind fun m2 =>
      (create_bayer fuel (x + size / 2) y (size / 2)
        (v + st * 2) (st * 4) m2).bind fun m3 =>
      create_bayer fuel x (y + size / 2) (size / 2) (v + st * 3) (st * 4) m3 := by
  rw [create_bayer, if_neg hs]

/-- Giving the recursion more fuel never changes a result it already
produces: the fuel parameter is only a depth bound. -/
lemma create_bayer_fuel_mono : ∀ (fuel : ℕ) (x y size : ℚ) (v st : ℕ)
    (m r : BMat), create_bayer fuel x y size v st m = some r →
    create_bayer (fuel + 1) x y size v st m = some r := by
  intro fuel
  induction fuel with
  | zero =>
    intro x y size v st m r h
    exact absurd h (by simp [create_bayer])
  | succ fuel ih =>
    intro x y size v st m r h
    by_cases hs : size = 1
    · rw [create_bayer, if_pos hs] at h ⊢
      exact h
    · rw [create_bayer_succ _ _ _ _ _ _ _ hs] at h ⊢
      obtain ⟨m1, e1, h⟩ := Option.bind_eq_some.mp h
      obtain ⟨m2, e2, h⟩ := Option.bind_eq_some.mp h
      obtain ⟨m3, e3, h⟩ := Option.bind_eq_some.mp h
      rw [ih _ _ _ _ _ _ _ e1]
      simp only [Option.some_bind]
      rw [ih _ _ _ _ _ _ _ e2]
      simp only [Option.some_bind]
      rw [ih _ _ _ _ _ _ _ e3]
      simp only [Option.some_bind]
      exact ih _ _ _ _ _ _ _ h

lemma create_bayer_fuel_le {fuel fuel' : ℕ} (hle : fuel ≤ fuel')
    (x y size : ℚ) (v st : ℕ) (m r : BMat)
    (h : create_bayer fuel x y size v st m = some r) :
    create_bayer fuel' x y size v st m = some r := by
  induction fuel', hle using Nat.le_induction with
  | base => exact h
  | succ fuel' hle ih => exact create_bayer_fuel_mono fuel' _ _ _ _ _ _ _ ih

/-- C4: for every `order ≥ 1`, `create_bayer(0, 0, 2^order, 0, 1)` terminates
(with recursion depth `order + 1`, hence under any larger fuel bound as
well) on a square matrix of side `2^order` whose entries, before
normalization, take each value in `[0, (2^order)^2 - 1]` exactly once (each
value occurs at exactly one position). -/
theorem bayer_matrix_is_permutation (order : ℕ) (h : 1 ≤ order) :
    ∃ m, create_bayer_run (order + 1) (2 ^ order) = some m ∧
      (∀ fuel, order + 1 ≤ fuel → create_bayer_run fuel (2 ^ order) = some m) ∧
      m.length = 2 ^ order ∧ (∀ row ∈ m, row.length = 2 ^ order) ∧
      ∀ t, t < 2 ^ order * 2 ^ order →
        ∃! p : ℕ × ℕ, p.1 < 2 ^ order ∧ p.2 < 2 ^ order ∧ matEntry m p.1 p.2 = t := by
  obtain ⟨m, e, l, r, c⟩ := create_bayer_run_eq order
  refine ⟨m, e, fun fuel hf => create_bayer_fuel_le hf _ _ _ _ _ _ _ e, l, r, ?_⟩
  intro t ht
  have ht4 : t < 4 ^ order := by
    have h4 : (4:ℕ) ^ order = 2 ^ order * 2 ^ order := by
      rw [show (4:ℕ) = 2 * 2 from rfl, mul_pow]
    omega
  obtain ⟨h1, h2, h3⟩ := bayerVal_bayerInv order t ht4
  refine ⟨bayerInv order t, ⟨h1, h2, ?_⟩, ?_⟩
  · rw [c _ _, if_pos ⟨h1, h2⟩]
    exact h3
  · rintro ⟨i, j⟩ ⟨hi, hj, hv⟩
    rw [c i j, if_pos ⟨hi, hj⟩] at hv
    have hb := bayerInv_bayerVal order i j hi hj
    rw [hv] at hb
    exact hb.symm

theorem bayer_matrix_is_permutation_witness :
    ∃ m, create_bayer_run (1 + 1) (2 ^ 1) = some m ∧
      (∀ fuel, 1 + 1 ≤ fuel → create_bayer_run fuel (2 ^ 1) = some m) ∧
      m.length = 2 ^ 1 ∧ (∀ row ∈ m, row.length = 2 ^ 1) ∧
      ∀ t, t < 2 ^ 1 * 2 ^ 1 →
        ∃! p : ℕ × ℕ, p.1 < 2 ^ 1 ∧ p.2 < 2 ^ 1 ∧ matEntry m p.1 p.2 = t :=
  bayer_matrix_is_permutation 1 le_rfl

set_option maxHeartbeats 3200000 in
/-- C5: `create_bayer(0, 0, 4, 0, 1)` (the call made for `order = 2`, with
`value = 0` and `step = 1`) produces, before normalization, exactly the
classical order-2 Bayer matrix. -/
theorem bayer_build4_concrete :
    create_bayer_run 3 4 =
      some [[0, 8, 2, 10], [12, 4, 14, 6], [3, 11, 1, 9], [15, 7, 13, 5]] := by
  norm_num [create_bayer_run, create_bayer, zerosMatrix, writeCell]
  decide

/-- Once the size argument fails every power of two, so does every halved
size, hence the recursion of `create_bayer` can never reach its `size == 1`
base case: it consumes any amount of fuel without producing a matrix. -/
lemma create_bayer_none : ∀ (fuel : ℕ) (s : ℚ), (∀ j : ℕ, s ≠ 2 ^ j) →
    ∀ (x y : ℚ) (v st : ℕ) (m : BMat), create_bayer fuel x y s v st m = none := by
  intro fuel
  induction fuel with
  | zero => intros; rfl
  | succ fuel ih =>
    intro s hs x y v st m
    have hs1 : ¬ (s = 1) := by simpa using hs 0
    have hs2 : ∀ j : ℕ, s / 2 ≠ 2 ^ j := by
      intro j hj
      refine hs (j + 1) ?_
      rw [pow_succ]
      rw [div_eq_iff (by norm_num : (2:ℚ) ≠ 0)] at hj
      exact hj
    rw [create_bayer, if_neg hs1]
    simp only [ih (s / 2) hs2]
    rfl

lemma natCast_ne_two_pow {n : ℕ} (h : ∀ j, j ≤ n → n ≠ 2 ^ j) :
    ∀ j : ℕ, (n : ℚ) ≠ 2 ^ j := by
  intro j hj
  have hn : n = 2 ^ j := by exact_mod_cast hj
  rcases le_or_lt j n with hle | hlt
  · exact h j hle hn
  · have hlt2 : n < 2 ^ j :=
      lt_of_lt_of_le (Nat.lt_two_pow n) (Nat.pow_le_pow_right (by norm_num) hlt.le)
    omega

/-- C8 (amended): for a positive size that is not a power of two,
`create_bayer` does not detect the bad size at all: the recursion can never
terminate, however much fuel (recursion depth) it is given — there is no
eager `InvalidConfiguration` check anywhere in the builder. -/
theorem create_bayer_not_pow2_diverges (size : ℕ)
    (h : ∀ j, j ≤ size → size ≠ 2 ^ j) (fuel : ℕ) :
    create_bayer_run fuel size = none := by
  unfold create_bayer_run
  exact create_bayer_none fuel _ (natCast_ne_two_pow h) _ _ _ _ _

theorem create_bayer_not_pow2_diverges_witness :
    create_bayer_run 37 6 = none :=
  create_bayer_not_pow2_diverges 6 (by decide) 37

/-- C8 counterexample: at size 6 the builder does not stop with any
(modelled) error: it burns through 50 recursion levels and is still going,
contradicting the claim that a non-power-of-two size terminates the build
eagerly with an `InvalidConfiguration` failure. -/
theorem create_bayer_size6_no_eager_error :
    create_bayer_run 50 6 = none := by
  unfold create_bayer_run
  exact create_bayer_none 50 _ (natCast_ne_two_pow (by decide)) _ _ _ _ _

lemma foldl_ordStep_not_mem (order : ℕ) (mat : BMat) :
    ∀ (l : List (ℕ × ℕ)) (img : NImg) (Y X : ℕ), (Y, X) ∉ l →
      l.foldl (ordStep order mat) img Y X = img Y X := by
  intro l
  induction l with
  | nil => intros; rfl
  | cons c rest ih =>
    intro img Y X h
    obtain ⟨cy, cx⟩ := c
    have h1 : (Y, X) ≠ (cy, cx) := fun he => h (he ▸ List.mem_cons_self _ _)
    have h2 : (Y, X) ∉ rest := fun hm => h (List.mem_cons_of_mem _ hm)
    simp only [List.foldl_cons]
    rw [ih _ _ _ h2]
    exact if_neg (by rintro ⟨rfl, rfl⟩; exact h1 rfl)

lemma foldl_ordStep_mem (order : ℕ) (mat : BMat) :
    ∀ (l : List (ℕ × ℕ)), l.Nodup → ∀ (img : NImg) (Y X : ℕ), (Y, X) ∈ l →
      l.foldl (ordStep order mat) img Y X =
        if matEntry mat (Y % order) (X % order) < img Y X then 255 else 0 := by
  intro l
  induction l with
  | nil => simp
  | cons c rest ih =>
    intro hnd img Y X hm
    obtain ⟨cy, cx⟩ := c
    simp only [List.foldl_cons]
    rcases List.mem_cons.mp hm with he | hm'
    · cases he
      have hnot : (Y, X) ∉ rest := (List.nodup_cons.mp hnd).1
      rw [foldl_ordStep_not_mem order mat rest _ Y X hnot]
      unfold ordStep updPix
      simp
    · rw [ih (List.nodup_cons.mp hnd).2 _ Y X hm']
      have hne : ¬ (Y = cy ∧ X = cx) := by
        rintro ⟨rfl, rfl⟩
        exact (List.nodup_cons.mp hnd).1 hm'
      have hstate : ordStep order mat img (cy, cx) Y X = img Y X := by
        unfold ordStep updPix
        exact if_neg hne
      rw [hstate]

lemma grid_pairwise {α : Type} (rows cols : List ℕ) (mk : ℕ → ℕ → α)
    (R : α → α → Prop)
    (hrows : rows.Pairwise (· < ·)) (hcols : cols.Pairwise (· < ·))
    (hR1 : ∀ y x x', x < x' → R (mk y x) (mk y x'))
    (hR2 : ∀ y y' x x', y < y' → R (mk y x) (mk y' x')) :
    (rows.flatMap fun y => cols.map fun x => mk y x).Pairwise R := by
  induction rows with
  | nil => simp
  | cons y ys ih =>
    obtain ⟨hhead, htail⟩ := List.pairwise_cons.mp hrows
    simp only [List.flatMap_cons]
    rw [List.pairwise_append]
    refine ⟨?_, ih htail, ?_⟩
    · rw [List.pairwise_map]
      exact hcols.imp (fun h => hR1 _ _ _ h)
    · intro a ha b hb
      obtain ⟨x, _, rfl⟩ := List.mem_map.mp ha
      obtain ⟨y', hy', hb'⟩ := List.mem_flatMap.mp hb
      obtain ⟨x', _, rfl⟩ := List.mem_map.mp hb'
      exact hR2 _ _ _ _ (hhead y' hy')

lemma ordCoords_nodup (ys xs : ℕ) : (ordCoords ys xs).Nodup := by
  have hp := grid_pairwise (List.range ys) (List.range xs) (fun y x => (y, x))
    (fun a b => a.1 < b.1 ∨ (a.1 = b.1 ∧ a.2 < b.2))
    (List.pairwise_lt_range ys) (List.pairwise_lt_range xs)
    (fun y x x' h => Or.inr ⟨rfl, h⟩) (fun y y' x x' h => Or.inl h)
  exact List.Pairwise.imp (fun h => by rintro rfl; omega) hp

lemma mem_ordCoords {ys xs y x : ℕ} : (y, x) ∈ ordCoords ys xs ↔ y < ys ∧ x < xs := by
  simp only [ordCoords, List.mem_flatMap, List.mem_map, List.mem_range]
  constructor
  · rintro ⟨a, ha, b, hb, heq⟩
    cases heq
    exact ⟨ha, hb⟩
  · rintro ⟨hy, hx⟩
    exact ⟨y, hy, x, hx, rfl⟩

/-- What `apply_Ordered` writes at every in-range pixel: the threshold against
`matrix[y % order][x % order]`. -/
lemma apply_Ordered_pixel (ys xs order : ℕ) (mat : BMat) (img : NImg) (y x : ℕ)
    (hy : y < ys) (hx : x < xs) :
    apply_Ordered ys xs order mat img y x =
      if matEntry mat (y % order) (x % order) < img y x then 255 else 0 :=
  foldl_ordStep_mem order mat _ (ordCoords_nodup ys xs) img y x
    (mem_ordCoords.mpr ⟨hy, hx⟩)

lemma headD_eq_getD_zero {α : Type} (l : List α) (d : α) : l.headD d = l.getD 0 d := by
  cases l <;> rfl

lemma matEntry_normalizeBayer (m : BMat) (i j : ℕ)
    (hi : i < m.length) (hj : j < (m.getD i []).length) :
    matEntry (normalizeBayer m) i j =
      matEntry m i j * 255 / (m.length * (m.headD []).length - 1) := by
  simp only [normalizeBayer, matEntry]
  have h2 : m.getD i [] = m[i] := List.getD_eq_getElem m [] hi
  have h1 : i < (m.map fun row =>
      row.map fun v => v * 255 / (m.length * (m.headD []).length - 1)).length := by
    simpa using hi
  rw [List.getD_eq_getElem _ _ h1, List.getElem_map]
  have hj2 : j < (m[i].map fun v =>
      v * 255 / (m.length * (m.headD []).length - 1)).length := by
    rw [List.length_map, ← h2]
    exact hj
  rw [List.getD_eq_getElem _ _ hj2, List.getElem_map, h2,
    List.getD_eq_getElem _ _ (h2 ▸ hj)]

/-- C1 (amended): for every `order ≥ 1` and in-range pixel `(y, x)`,
`dither_Ordered` outputs 255 exactly when the pixel value strictly exceeds
the normalized Bayer entry at row `y mod order` and column `x mod order` —
the source reduces the tile coordinates modulo `order`, not modulo the matrix
side `2^order` — where normalization is entrywise
`floor(value * 255 / (side^2 - 1))` of the `2^order`-sided matrix. -/
theorem dither_Ordered_pixel_formula (order ys xs : ℕ) (img : NImg) (y x : ℕ)
    (ho : 1 ≤ order) (hy : y < ys) (hx : x < xs) :
    ∃ m out, create_bayer_run (order + 1) (2 ^ order) = some m ∧
      dither_Ordered order ys xs img = some out ∧
      matEntry (normalizeBayer m) (y % order) (x % order) =
        matEntry m (y % order) (x % order) * 255 / (2 ^ order * 2 ^ order - 1) ∧
      out y x =
        if matEntry (normalizeBayer m) (y % order) (x % order) < img y x
        then 255 else 0 := by
  obtain ⟨m, e, l, r, c⟩ := create_bayer_run_eq order
  have hord : order ≤ 2 ^ order := Nat.le_of_lt (Nat.lt_two_pow order)
  have hi : y % order < m.length := by
    rw [l]; exact lt_of_lt_of_le (Nat.mod_lt _ (by omega)) hord
  have hj : x % order < (m.getD (y % order) []).length := by
    rw [r _ (getD_mem m (y % order) [] hi)]
    exact lt_of_lt_of_le (Nat.mod_lt _ (by omega)) hord
  refine ⟨m, apply_Ordered ys xs order (normalizeBayer m) img, e, ?_, ?_, ?_⟩
  · unfold dither_Ordered
    rw [e]
    rfl
  · rw [matEntry_normalizeBayer m _ _ hi hj, l, headD_eq_getD_zero,
      r _ (getD_mem m 0 [] (by rw [l]; exact pow_pos (by norm_num) order))]
  · exact apply_Ordered_pixel ys xs order (normalizeBayer m) img y x hy hx

theorem dither_Ordered_pixel_formula_witness :
    ∃ m out, create_bayer_run (1 + 1) (2 ^ 1) = some m ∧
      dither_Ordered 1 1 2 (fun _ _ => 100) = some out ∧
      matEntry (normalizeBayer m) (0 % 1) (1 % 1) =
        matEntry m (0 % 1) (1 % 1) * 255 / (2 ^ 1 * 2 ^ 1 - 1) ∧
      out 0 1 =
        if matEntry (normalizeBayer m) (0 % 1) (1 % 1) < 100 then 255 else 0 :=
  dither_Ordered_pixel_formula 1 1 2 (fun _ _ => 100) 0 1 le_rfl
    (by norm_num) (by norm_num)

/-- C1 counterexample: a 1×2 all-100 image dithered at `order = 1` (matrix
side 2).  The source writes 255 at pixel `(0, 1)` (it thresholds against
`matrix[0][0] = 0` because indices are reduced mod `order = 1`), while the
claim's mod-`2^order` indexing thresholds against the normalized
`matrix[0][1] = 170` and would write 0. -/
theorem dither_Ordered_mod_side_counterexample :
    (dither_Ordered 1 1 2 (fun _ _ => 100)).map (fun out => out 0 1) = some 255 ∧
    (dither_Ordered_claimC1 1 1 2 (fun _ _ => 100)).map (fun out => out 0 1) = some 0 := by
  have cb : create_bayer_run (1 + 1) (2 ^ 1) = some [[0, 2], [3, 1]] := by
    norm_num [create_bayer_run, create_bayer, zerosMatrix, writeCell]
    decide
  constructor
  · unfold dither_Ordered
    rw [cb]
    decide
  · unfold dither_Ordered_claimC1
    rw [cb]
    decide

/-- `fsStep` at `c` only touches `c` itself and cells after it in row-major
order. -/
lemma fsStep_untouched (img : QImg) (c : ℤ × ℤ) (y x : ℤ)
    (h1 : y ≤ c.1) (h2 : c.1 = y → x < c.2) :
    fsStep img c y x = img y x := by
  obtain ⟨cy, cx⟩ := c
  simp only at h1 h2
  simp only [fsStep, qadd, qwrite]
  split_ifs <;> first | rfl | (exfalso; omega)

lemma fsStep_preserves_earlier (img : QImg) (c d : ℤ × ℤ) (h : rmLT d c) :
    fsStep img c d.1 d.2 = img d.1 d.2 := by
  rcases h with h | ⟨h1, h2⟩
  · exact fsStep_untouched img c d.1 d.2 (by omega) (by omega)
  · exact fsStep_untouched img c d.1 d.2 (by omega) (fun _ => by omega)

lemma foldl_fsStep_preserves : ∀ (l : List (ℤ × ℤ)) (img : QImg) (d : ℤ × ℤ),
    (∀ c ∈ l, rmLT d c) → l.foldl fsStep img d.1 d.2 = img d.1 d.2 := by
  intro l
  induction l with
  | nil => intros; rfl
  | cons c rest ih =>
    intro img d h
    simp only [List.foldl_cons]
    rw [ih _ _ (fun c' hc' => h c' (List.mem_cons_of_mem _ hc')),
      fsStep_preserves_earlier _ _ _ (h c (List.mem_cons_self _ _))]

lemma foldl_fsStep_top_row : ∀ (l : List (ℤ × ℤ)) (img : QImg) (y x : ℤ),
    (∀ c ∈ l, 1 ≤ c.1) → y ≤ 0 → l.foldl fsStep img y x = img y x := by
  intro l
  induction l with
  | nil => intros; rfl
  | cons c rest ih =>
    intro img y x h hy
    simp only [List.foldl_cons]
    rw [ih _ _ _ (fun c' hc' => h c' (List.mem_cons_of_mem _ hc')) hy]
    have hc := h c (List.mem_cons_self _ _)
    exact fsStep_untouched img c y x (by omega) (fun he => by omega)

/-- Every buffer value the scan produces stays `≤ 255`: the written value is
`255 * floor(old / 128) ≤ 255` when `old ≤ 255`, and diffusion only ever adds
the nonpositive `quant_error` scaled by a positive weight. -/
lemma fsStep_bounded (img : QImg) (c : ℤ × ℤ) (h : ∀ y x, img y x ≤ 255) :
    ∀ y x, fsStep img c y x ≤ 255 := by
  intro y x
  obtain ⟨cy, cx⟩ := c
  have hold : img cy cx ≤ 255 := h _ _
  have hfl : (⌊img cy cx / 128⌋ : ℚ) ≤ 1 := by
    have h1 : ⌊img cy cx / 128⌋ ≤ ⌊(255 : ℚ) / 128⌋ :=
      Int.floor_le_floor (by gcongr)
    have h2 : ⌊(255 : ℚ) / 128⌋ = 1 := by norm_num
    exact_mod_cast h1.trans_eq h2
  have hnew : (255 : ℚ) * (⌊img cy cx / 128⌋ : ℚ) ≤ 255 := by nlinarith
  have hqe : min (img cy cx - 255 * (⌊img cy cx / 128⌋ : ℚ)) 0 ≤ 0 :=
    min_le_right _ _
  have hw7 : min (img cy cx - 255 * (⌊img cy cx / 128⌋ : ℚ)) 0 * (7 / 16) ≤ 0 := by
    nlinarith
  have hw3 : min (img cy cx - 255 * (⌊img cy cx / 128⌋ : ℚ)) 0 * (3 / 16) ≤ 0 := by
    nlinarith
  have hw5 : min (img cy cx - 255 * (⌊img cy cx / 128⌋ : ℚ)) 0 * (5 / 16) ≤ 0 := by
    nlinarith
  have hw1 : min (img cy cx - 255 * (⌊img cy cx / 128⌋ : ℚ)) 0 * (1 / 16) ≤ 0 := by
    nlinarith
  simp only [fsStep, qadd, qwrite]
  split_ifs <;> first
    | linarith [h y x]
    | linarith [h cy (cx + 1)]
    | linarith [h (cy + 1) (cx - 1)]
    | linarith [h (cy + 1) cx]
    | linarith [h (cy + 1) (cx + 1)]

lemma foldl_fsStep_bounded : ∀ (l : List (ℤ × ℤ)) (img : QImg),
    (∀ y x, img y x ≤ 255) → ∀ y x, l.foldl fsStep img y x ≤ 255 := by
  intro l
  induction l with
  | nil => intro img h y x; exact h y x
  | cons c rest ih =>
    intro img h y x
    simp only [List.foldl_cons]
    exact ih _ (fsStep_bounded img c h) y x

/-- The value `fsStep` leaves at its own cell. -/
lemma fsStep_writes (img : QImg) (c : ℤ × ℤ) :
    fsStep img c c.1 c.2 = 255 * (⌊img c.1 c.2 / 128⌋ : ℚ) := by
  obtain ⟨cy, cx⟩ := c
  simp only [fsStep, qadd, qwrite]
  split_ifs <;> first | rfl | (exfalso; omega) | tauto

/-- Every processed (interior) cell ends at `255 * floor(v / 128)` where `v`
(its accumulated value when visited) is at most 255: the scan never revisits a
written cell, because diffusion targets are strictly later in row-major
order. -/
lemma foldl_fsStep_processed : ∀ (l : List (ℤ × ℤ)) (img : QImg) (c : ℤ × ℤ),
    l.Pairwise rmLT → c ∈ l → (∀ y x, img y x ≤ 255) →
    ∃ v : ℚ, v ≤ 255 ∧ l.foldl fsStep img c.1 c.2 = 255 * (⌊v / 128⌋ : ℚ) := by
  intro l
  induction l with
  | nil => simp
  | cons c0 rest ih =>
    intro img c hp hm hub
    obtain ⟨hhead, htail⟩ := List.pairwise_cons.mp hp
    simp only [List.foldl_cons]
    rcases List.mem_cons.mp hm with rfl | hm'
    · refine ⟨img c.1 c.2, hub _ _, ?_⟩
      rw [foldl_fsStep_preserves rest _ c (fun d hd => hhead d hd)]
      exact fsStep_writes img c
    · exact ih (fsStep img c0) c htail hm' (fsStep_bounded img c0 hub)

lemma range'_pairwise_lt (s n : ℕ) : (List.range' s n).Pairwise (· < ·) := by
  induction n generalizing s with
  | zero => simp
  | succ n ih =>
    rw [List.range'_succ]
    refine List.pairwise_cons.mpr ⟨?_, ih (s + 1)⟩
    intro m hm
    have := List.mem_range'_1.mp hm
    omega

lemma fsCoords_pairwise (ys xs : ℕ) : (fsCoords ys xs).Pairwise rmLT := by
  unfold fsCoords
  refine grid_pairwise _ _ _ rmLT
    (range'_pairwise_lt 1 (ys - 2)) (range'_pairwise_lt 1 (xs - 2)) ?_ ?_
  · intro y x x' h
    exact Or.inr ⟨rfl, by simpa using h⟩
  · intro y y' x x' h
    exact Or.inl (by simpa using h)

lemma mem_fsCoords {ys xs : ℕ} {y x : ℤ} :
    (y, x) ∈ fsCoords ys xs ↔
      1 ≤ y ∧ y < (ys : ℤ) - 1 ∧ 1 ≤ x ∧ x < (xs : ℤ) - 1 := by
  unfold fsCoords
  rw [List.mem_flatMap]
  constructor
  · rintro ⟨a, ha, hmem⟩
    rw [List.mem_map] at hmem
    obtain ⟨b, hb, heq⟩ := hmem
    rw [List.mem_range'_1] at ha hb
    have hy : (a : ℤ) = y := congrArg Prod.fst heq
    have hx : (b : ℤ) = x := congrArg Prod.snd heq
    omega
  · rintro ⟨hy1, hy2, hx1, hx2⟩
    refine ⟨y.toNat, ?_, ?_⟩
    · rw [List.mem_range'_1]; omega
    · rw [List.mem_map]
      refine ⟨x.toNat, ?_, ?_⟩
      · rw [List.mem_range'_1]; omega
      · rw [Int.toNat_of_nonneg (by omega), Int.toNat_of_nonneg (by omega)]

lemma fsCoords_row_ge_one (ys xs : ℕ) : ∀ c ∈ fsCoords ys xs, 1 ≤ c.1 := by
  rintro ⟨cy, cx⟩ hc
  exact (mem_fsCoords.mp hc).1

lemma toUint8_natCast (n : ℕ) (h : n ≤ 255) : toUint8 (n : ℚ) = n := by
  unfold toUint8
  rw [Int.floor_natCast, Int.emod_eq_of_lt (by omega) (by omega)]
  omega

/-- C2 (amended): `dither_Floyd_Steinberg` leaves every pixel of the TOP row
(`y = 0`) at exactly its original value, and every interior pixel ends at
`255 * floor(v / 128)` for its accumulated value `v ≤ 255` — which is 0 or
255 whenever `v` is still nonnegative when the pixel is visited.  (Border
pixels in the left and right columns and the bottom row are NOT left
unmodified in general: diffusion writes into them, see the counterexample;
and `v` can go negative, making the pre-cast interior value `-255`.) -/
theorem dither_FS_top_row_and_interior (ys xs : ℕ) (img : ℤ → ℤ → ℕ)
    (hub : ∀ y x, img y x ≤ 255) :
    (∀ x : ℤ, dither_Floyd_Steinberg ys xs img 0 x = img 0 x) ∧
    (∀ y x : ℤ, 1 ≤ y → y < (ys : ℤ) - 1 → 1 ≤ x → x < (xs : ℤ) - 1 →
      ∃ v : ℚ, v ≤ 255 ∧
        apply_Floyd_Steinberg ys xs (castImg img) y x = 255 * (⌊v / 128⌋ : ℚ) ∧
        (0 ≤ v → dither_Floyd_Steinberg ys xs img y x = 0 ∨
          dither_Floyd_Steinberg ys xs img y x = 255)) := by
  have hcast : ∀ y x, castImg img y x ≤ 255 := by
    intro y x
    unfold castImg
    exact_mod_cast hub y x
  constructor
  · intro x
    unfold dither_Floyd_Steinberg apply_Floyd_Steinberg
    rw [foldl_fsStep_top_row _ _ _ _ (fsCoords_row_ge_one ys xs) le_rfl]
    exact toUint8_natCast _ (hub 0 x)
  · intro y x hy1 hy2 hx1 hx2
    obtain ⟨v, hv, he⟩ := foldl_fsStep_processed (fsCoords ys xs) (castImg img) (y, x)
      (fsCoords_pairwise ys xs) (mem_fsCoords.mpr ⟨hy1, hy2, hx1, hx2⟩) hcast
    have he' : apply_Floyd_Steinberg ys xs (castImg img) y x =
        255 * (⌊v / 128⌋ : ℚ) := he
    refine ⟨v, hv, he', ?_⟩
    intro hv0
    have h01 : ⌊v / 128⌋ = 0 ∨ ⌊v / 128⌋ = 1 := by
      have hge : 0 ≤ ⌊v / 128⌋ := Int.floor_nonneg.mpr (by positivity)
      have hle : ⌊v / 128⌋ ≤ ⌊(255 : ℚ) / 128⌋ := Int.floor_le_floor (by gcongr)
      have h255 : ⌊(255 : ℚ) / 128⌋ = 1 := by norm_num
      omega
    unfold dither_Floyd_Steinberg
    rcases h01 with h | h
    · left
      have hz : apply_Floyd_Steinberg ys xs (castImg img) y x = 0 := by
        rw [he', h]; norm_num
      rw [hz]
      norm_num [toUint8]
    · right
      have hz : apply_Floyd_Steinberg ys xs (castImg img) y x = 255 := by
        rw [he', h]; norm_num
      rw [hz]
      norm_num [toUint8]
      decide

theorem dither_FS_top_row_and_interior_witness :
    dither_Floyd_Steinberg 3 3 (fun _ _ => 200) 0 2 = 200 :=
  (dither_FS_top_row_and_interior 3 3 (fun _ _ => 200) (fun _ _ => by norm_num)).1 2

/-- C2 counterexample: on the 3×3 all-200 image, border pixels `(1, 2)`
(right column) and `(2, 0)` (bottom-left corner) end at 175 and 189 — not at
their original value 200, because the single interior pixel diffuses its
negative quantization error into them.  And on `fsImg5`, the interior pixel
`(2, 2)` accumulates the value `-518106/4096 < 0` before being visited, so
the buffer value written there is `255 * floor(v/128) = -255`: not 0 or 255. -/
theorem dither_FS_borders_modified_counterexample :
    dither_Floyd_Steinberg 3 3 (fun _ _ => 200) 1 2 = 175 ∧
    dither_Floyd_Steinberg 3 3 (fun _ _ => 200) 2 0 = 189 ∧
    apply_Floyd_Steinberg 5 5 (castImg fsImg5) 2 2 = -255 := by
  have h33 : fsCoords 3 3 = [(1, 1)] := by decide
  have h55 : fsCoords 5 5 =
      [(1,1),(1,2),(1,3),(2,1),(2,2),(2,3),(3,1),(3,2),(3,3)] := by decide
  refine ⟨?_, ?_, ?_⟩
  · unfold dither_Floyd_Steinberg apply_Floyd_Steinberg
    rw [h33]
    norm_num [List.foldl, fsStep, qadd, qwrite, castImg, toUint8, min_def]
    decide
  · unfold dither_Floyd_Steinberg apply_Floyd_Steinberg
    rw [h33]
    norm_num [List.foldl, fsStep, qadd, qwrite, castImg, toUint8, min_def]
    decide
  · unfold apply_Floyd_Steinberg
    rw [h55]
    norm_num [List.foldl, fsStep, qadd, qwrite, castImg, fsImg5, min_def]

/-- C3 (code evaluated at the failing input, for the code_bug verdict): in
`linear_static` mode — one of the three mode strings the generator's own
assert admits — the fill loop writes 0 into EVERY pre-rotation row, because
its dispatch tests `mode == "linear"`, which no admissible mode equals.  The
claimed linear decay (`_decayed_value_in_linear`, which at the center row
would give `max_brightness`) is dead code.  The same holds for
`linear_dynamic`. -/
theorem linear_static_rows_all_zero (w h : ℕ) (posY : ℤ)
    (maxB minB rate : ℝ) (i : ℕ) :
    pre_rotation_row_value "linear_static" w h posY maxB minB rate i = some 0 ∧
    pre_rotation_row_value "linear_dynamic" w h posY maxB minB rate i = some 0 ∧
    (0 ≤ maxB → decayed_value_in_linear ((maskPadding w h : ℝ) + (posY : ℝ))
      maxB ((maskPadding w h : ℝ) + (posY : ℝ)) rate = maxB) := by
  refine ⟨?_, ?_, ?_⟩
  · unfold pre_rotation_row_value maskRowValue
    rw [if_neg (by decide), if_neg (by decide)]
  · unfold pre_rotation_row_value maskRowValue
    rw [if_neg (by decide), if_neg (by decide)]
  · intro hmb
    unfold decayed_value_in_linear
    simp only [sub_self, abs_zero, zero_mul, sub_zero]
    rw [if_neg (by linarith)]

theorem linear_static_rows_all_zero_witness :
    pre_rotation_row_value "linear_static" 3 3 1 255 0 1 0 = some 0 ∧
    pre_rotation_row_value "linear_dynamic" 3 3 1 255 0 1 0 = some 0 ∧
    decayed_value_in_linear ((maskPadding 3 3 : ℝ) + ((1 : ℤ) : ℝ)) 255
      ((maskPadding 3 3 : ℝ) + ((1 : ℤ) : ℝ)) 1 = 255 := by
  obtain ⟨h1, h2, h3⟩ := linear_static_rows_all_zero 3 3 1 255 0 1 0
  exact ⟨h1, h2, h3 (by norm_num)⟩

/-- C7 (code evaluated at the failing input, for the code_bug verdict): in
`gaussian` mode the fill loop never produces the claimed pdf-ratio value for
any row of any mask — the first `norm.pdf` dereference raises `NameError`
(the module binds no name `norm`), modelled as `none`.  The claim does match
the intended body of the dead helper: abstracted over the unresolved name,
`_decayed_value_in_norm` computes exactly
`(pdf(i) / pdf(center)) * (max_brightness - min_brightness) +
min_brightness` with the pdf centered at the padded light-source row
`padding + pos_y` and standard deviation `h / 3`, the decay-axis size
divided by 3 — the second conjunct states this of the normal density. -/
theorem gaussian_mode_raises_name_error (w h : ℕ) (posY : ℤ)
    (maxB minB rate : ℝ) (i : ℕ) :
    pre_rotation_row_value "gaussian" w h posY maxB minB rate i = none ∧
    decayed_value_in_norm_body normPdf i maxB minB
        ((maskPadding w h : ℝ) + (posY : ℝ)) h =
      (normPdf i ((maskPadding w h : ℝ) + (posY : ℝ)) ((h : ℝ) / 3) /
        normPdf ((maskPadding w h : ℝ) + (posY : ℝ))
          ((maskPadding w h : ℝ) + (posY : ℝ)) ((h : ℝ) / 3)) *
        (maxB - minB) + minB := by
  constructor
  · unfold pre_rotation_row_value maskRowValue decayed_value_in_norm normLookup
    rw [if_neg (by decide), if_pos rfl]
    rfl
  · rfl

/-- C6: a fresh executor of probability 1 over two stages `A`, `B`, each of
probability 1, run on image `I` (no force): the stages run strictly in
order, each output feeding the next input, and the primary image result —
the first component of the returned tuple — is exactly `B(A(I))`. -/
theorem sequence_composes (Img : Type) (fA fB : Img → Img) (I : Img)
    (dS d1 d2 : ℚ) (hS : dS ≤ 1) (h1 : d1 ≤ 1) (h2 : d2 ≤ 1) :
    (augmentation_sequence_call 1 [imageAug 1 fA, imageAug 1 fB]
        (PyVal.image I) false dS [d1, d2]).1 =
      PyVal.tup (PyVal.image (fB (fA I))) := by
  simp [augmentation_sequence_call, runAugs, Aug.call, imageAug, shouldRun,
    hS, h1, h2]

theorem sequence_composes_witness :
    (augmentation_sequence_call 1
        [imageAug 1 (fun n => n + 1), imageAug 1 (fun n => n * 2)]
        (PyVal.image (3 : ℕ)) false 1 [1, 1]).1 =
      PyVal.tup (PyVal.image 8) := by
  simpa using sequence_composes ℕ (fun n => n + 1) (fun n => n * 2) 3 1 1 1
    le_rfl le_rfl le_rfl

/-- C10: an executor invoked with `force = true` still calls each inner
augmentation without the force flag; an inner augmentation whose gate fails
returns `None`, and that `None` is both appended to the results log and
passed, as the input image, to the following augmentation (whose transform
receives `PyVal.none`). -/
theorem sequence_force_inner_none (Img : Type) (p pa1 pa2 : ℚ)
    (f1 f2 : PyVal Img → PyVal Img) (I : Img) (dS d1 d2 : ℚ)
    (h1 : ¬ d1 ≤ pa1) (h2 : d2 ≤ pa2) :
    augmentation_sequence_call p [⟨pa1, f1⟩, ⟨pa2, f2⟩]
        (PyVal.image I) true dS [d1, d2] =
      (PyVal.tup (f2 PyVal.none), [PyVal.none, f2 PyVal.none]) := by
  simp [augmentation_sequence_call, runAugs, Aug.call, shouldRun, h1, h2]

theorem sequence_force_inner_none_witness :
    augmentation_sequence_call 1 [⟨0, id⟩, ⟨1, id⟩]
        (PyVal.image (5 : ℕ)) true 0 [1, 0] =
      (PyVal.tup PyVal.none, [PyVal.none, PyVal.none]) := by
  simpa using sequence_force_inner_none ℕ 1 0 1 id id 5 0 1 0
    (by norm_num) (by norm_num)

/-- C9 (code evaluated at the failing input, for the code_bug verdict):
invoking the Geometric stage with ANY non-empty configured crop tuple —
degenerate bounds included — does not soft-skip: it raises `TypeError`
(`none`), because the instance attribute `self.crop` shadows the `crop`
method and the tuple itself gets called; the only error-free path is the
empty default tuple, which passes the image through.  The claim describes
the shadowed method's body, which would indeed have been a silent no-op on
bounds that are degenerate after the `-1` sentinel substitution — the last
conjunct proves that of `geometric_crop`. -/
theorem geometric_crop_shadowed (crop : List ℤ) (image : List (List ℕ))
    (h4 : crop.length = 4)
    (hdeg : ¬ ((if crop.getD 3 0 = -1 then (image.length : ℤ)
          else crop.getD 3 0) > crop.getD 1 0 ∧
        crop.getD 1 0 ≥ 0 ∧
        (if crop.getD 2 0 = -1 then ((image.headD []).length : ℤ)
          else crop.getD 2 0) > crop.getD 0 0 ∧
        crop.getD 0 0 ≥ 0)) :
    geometric_call_crop crop image = none ∧
    geometric_call_crop [] image = some image ∧
    geometric_crop crop image = image := by
  refine ⟨?_, ?_, ?_⟩
  · unfold geometric_call_crop
    rw [if_pos (by intro he; rw [he] at h4; simp at h4)]
  · unfold geometric_call_crop
    rw [if_neg (by simp)]
  · unfold geometric_crop
    rw [if_pos h4, if_neg hdeg]

theorem geometric_crop_shadowed_witness :
    geometric_call_crop [3, 0, 2, 5] [[1, 2], [3, 4]] = none ∧
    geometric_call_crop [] [[1, 2], [3, 4]] = some [[1, 2], [3, 4]] ∧
    geometric_crop [3, 0, 2, 5] [[1, 2], [3, 4]] = [[1, 2], [3, 4]] :=
  geometric_crop_shadowed [3, 0, 2, 5] [[1, 2], [3, 4]] (by decide) (by decide)

end Augraphy

